import Mathlib

/-!
Shallow embedding of the go-snippets repository, covering the components the
specification makes claims about:

* the in-process publish/subscribe broker (the `Broker.run` select loop, the
  public operations `Subscribe` / `Unsubscribe` / `Publish` / `Stop`);
* the bounded per-subscriber delivery attempt (a send raced against a
  `context.WithTimeout` deadline);
* the `go-sum-benchmark` sequential and concurrent sum-of-squares functions.

Conventions of the embedding:

* A Go channel value of type `Subscriber` is a reference; we identify each
  allocated channel by a numeric allocation id (`Handle`).
* The Go map `map[string]map[Subscriber]bool` is an association list from
  topic to the list of handles in the inner set; `lookupTopic` / `setTopic`
  are Go map read / write, and a missing entry models a nil inner map.
* The run goroutine is the only reader or writer of the subscription map and
  drains its four channels one event per iteration, so its behaviour is a
  deterministic fold of `runStep` over the sequence of requests it receives.
* Side effects that escape the loop (closing a subscriber channel, spawning a
  delivery goroutine) are recorded as an event trace (`Ev`).
-/

/-- Topics are opaque strings. -/
abbrev Topic := String

/-- A subscriber handle: in Go, `type Subscriber chan Message`; channels are
reference values, so a handle is identified by its allocation id. -/
abbrev Handle := Nat

/-- Payloads are opaque to the broker (`interface{}` in Go): no broker code
inspects them, so a representative type suffices. -/
abbrev Payload := Nat

/-- `Message` from the source: a topic together with a payload. -/
structure Message where
  topic : Topic
  payload : Payload
deriving DecidableEq

/-- The four kinds of events the run loop can receive on its intake channels:
a `subRequest` on `subCh`, an `unsubRequest` on `unsubCh`, a `Message` on
`pubCh`, and the stop signal on `stopCh`. -/
inductive Request where
  | sub (topic : Topic) (handle : Handle)
  | unsub (topic : Topic) (handle : Handle)
  | pub (msg : Message)
  | stop
deriving DecidableEq

/-- Observable side effects of one run-loop iteration: closing a subscriber
channel (`close(sub)`), and spawning a delivery goroutine for one
(subscriber, message) pair. -/
inductive Ev where
  | close (handle : Handle)
  | deliver (handle : Handle) (msg : Message)
deriving DecidableEq

/-- The state owned by the run goroutine: the subscription map
`map[string]map[Subscriber]bool`, whether the loop has returned (`stopped`),
and whether the deferred `close` of the three intake channels has run. -/
structure BrokerState where
  subscriptions : List (Topic × List Handle)
  stopped : Bool
  intakeClosed : Bool
deriving DecidableEq

/-- `NewBroker`: empty subscription map, loop running. -/
def NewBroker : BrokerState := ⟨[], false, false⟩

/-- Go map read `m[t]`: `none` models a missing entry (nil inner map), as
distinct from an entry holding an empty set. -/
def lookupTopic : List (Topic × List Handle) → Topic → Option (List Handle)
  | [], _ => none
  | p :: rest, t => if p.1 = t then some p.2 else lookupTopic rest t

/-- Go map write `m[t] = hs` (overwrites the existing entry, or adds one). -/
def setTopic : List (Topic × List Handle) → Topic → List Handle → List (Topic × List Handle)
  | [], t, hs => [(t, hs)]
  | p :: rest, t, hs => if p.1 = t then (t, hs) :: rest else p :: setTopic rest t hs

/-- Go set insert `inner[h] = true`: a no-op when the handle is already a
member. -/
def insertH (h : Handle) (hs : List Handle) : List Handle :=
  if h ∈ hs then hs else hs ++ [h]

/-- The subscriber set currently registered under a topic; empty for a
missing topic (iterating a nil Go map yields nothing). -/
def registered (s : BrokerState) (t : Topic) : List Handle :=
  (lookupTopic s.subscriptions t).getD []

/-- Every handle appearing in any topic's subscriber set, in map order. -/
def allHandles : List (Topic × List Handle) → List Handle
  | [] => []
  | p :: rest => p.2 ++ allHandles rest

/-- One iteration of the `Broker.run` select loop.  After the loop has
returned, requests are never received (a sender would block forever); we
model a request arriving at a stopped broker as having no effect. -/
def runStep (s : BrokerState) (r : Request) : BrokerState × List Ev :=
  if s.stopped then (s, [])
  else
    match r with
    | .stop =>
        ({ s with stopped := true, intakeClosed := true },
         (allHandles s.subscriptions).map Ev.close)
    | .sub t h =>
        let cur := (lookupTopic s.subscriptions t).getD []
        ({ s with subscriptions := setTopic s.subscriptions t (insertH h cur) }, [])
    | .unsub t h =>
        match lookupTopic s.subscriptions t with
        | some hs =>
            if h ∈ hs then
              ({ s with subscriptions := setTopic s.subscriptions t (hs.erase h) },
               [Ev.close h])
            else (s, [])
        | none => (s, [])
    | .pub m =>
        match lookupTopic s.subscriptions m.topic with
        | some hs => (s, hs.map fun h => Ev.deliver h m)
        | none => (s, [])

/-- The run loop over a finite request sequence, collecting the event
trace. -/
def runReqs (s : BrokerState) : List Request → BrokerState × List Ev
  | [] => (s, [])
  | r :: rs =>
      let p := runStep s r
      let q := runReqs p.1 rs
      (q.1, p.2 ++ q.2)

/-- The capacity of the buffered channel allocated by `Broker.Subscribe`:
`make(Subscriber, 10)`. -/
def subscriberCapacity : Nat := 10

/-- The public API of the broker.  `subscribe` allocates a fresh channel in
the calling goroutine and hands it to the run loop; the other operations
only hand a request over. -/
inductive Op where
  | subscribe (topic : Topic)
  | unsubscribe (topic : Topic) (handle : Handle)
  | publish (topic : Topic) (payload : Payload)
  | stop
deriving DecidableEq

/-- The handles closed by a trace of run-loop events, in order. -/
def closesOf (evs : List Ev) : List Handle :=
  evs.filterMap fun e =>
    match e with
    | .close h => some h
    | .deliver _ _ => none

/-- State of a broker as seen through the public API: the run goroutine's
state, the allocation counter for fresh channels, the capacity each channel
was allocated with, and the accumulated log of channel closes. -/
structure ApiState where
  broker : BrokerState
  nextHandle : Handle
  caps : List (Handle × Nat)
  closedLog : List Handle
deriving DecidableEq

/-- A freshly constructed broker (`NewBroker`), before any operation. -/
def apiInit : ApiState := ⟨NewBroker, 0, [], []⟩

/-- One public operation.  `Subscribe` performs `make(Subscriber, 10)` —
always a fresh channel, here the next allocation id — and submits a
`subRequest`; the returned handle is `s.nextHandle`. -/
def apiStep (s : ApiState) : Op → ApiState
  | .subscribe t =>
      let p := runStep s.broker (.sub t s.nextHandle)
      { broker := p.1
        nextHandle := s.nextHandle + 1
        caps := s.caps ++ [(s.nextHandle, subscriberCapacity)]
        closedLog := s.closedLog ++ closesOf p.2 }
  | .unsubscribe t h =>
      let p := runStep s.broker (.unsub t h)
      { s with broker := p.1, closedLog := s.closedLog ++ closesOf p.2 }
  | .publish t pl =>
      let p := runStep s.broker (.pub ⟨t, pl⟩)
      { s with broker := p.1, closedLog := s.closedLog ++ closesOf p.2 }
  | .stop =>
      let p := runStep s.broker .stop
      { s with broker := p.1, closedLog := s.closedLog ++ closesOf p.2 }

/-- A finite sequence of public operations against a fresh broker state. -/
def apiRun (s : ApiState) : List Op → ApiState
  | [] => s
  | o :: os => apiRun (apiStep s o) os

/-- Spec-side view of one request acting on per-topic registered sets
(written from the specification: insert on subscribe, erase on unsubscribe,
in submission order; publish and stop do not change membership). -/
def specStep (f : Topic → List Handle) : Request → Topic → List Handle
  | .sub t h => fun t' => if t' = t then insertH h (f t) else f t'
  | .unsub t h => fun t' => if t' = t then (f t).erase h else f t'
  | .pub _ => f
  | .stop => f

/-- Spec-side registered sets after a request sequence (written from the
specification: subscribes minus unsubscribes, applied in submission
order). -/
def specRun (f : Topic → List Handle) : List Request → Topic → List Handle
  | [] => f
  | r :: rs => specRun (specStep f r) rs

/-- Recognizer for the mutation requests claim C2 quantifies over. -/
def isSubOrUnsub : Request → Bool
  | .sub _ _ => true
  | .unsub _ _ => true
  | .pub _ => false
  | .stop => false

/-- Spec-side delivery sequence for one handle (written from the
specification): the payloads published, in submission order, to topics under
which the handle is registered at that moment; nothing after stop. -/
def specDeliveries (f : Topic → List Handle) (h : Handle) : List Request → List Payload
  | [] => []
  | .sub t h' :: rs => specDeliveries (specStep f (.sub t h')) h rs
  | .unsub t h' :: rs => specDeliveries (specStep f (.unsub t h')) h rs
  | .pub m :: rs =>
      (if h ∈ f m.topic then [m.payload] else []) ++ specDeliveries f h rs
  | .stop :: _ => []

/-- The payloads carried by the delivery tasks spawned for one handle, in
spawn order. -/
def deliveredTo (evs : List Ev) (h : Handle) : List Payload :=
  evs.filterMap fun e =>
    match e with
    | .deliver h' m => if h' = h then some m.payload else none
    | .close _ => none

/-- The registered sets of a broker state, as a function of the topic. -/
def regFun (s : BrokerState) : Topic → List Handle := fun t => registered s t

/-- `time.Second` in nanoseconds (Go `time.Duration` units). -/
def timeSecondNanos : Nat := 1000000000

/-- The per-delivery deadline: `context.WithTimeout(ctx, 1*time.Second)`. -/
def deliveryTimeout : Nat := 1 * timeSecondNanos

/-- Outcome of one delivery attempt. -/
inductive DeliveryResult where
  | sent
  | dropped
deriving DecidableEq

/-- The body of the delivery goroutine spawned per (subscriber, message)
pair: `select { case s <- m: ... case <-ctx.Done(): ... }` with a
1-second context deadline.  `sendReady` is the instant (nanoseconds from
spawn) at which the channel send could complete — a buffer slot free or a
reader waiting — with `none` when it never could.  The result pairs the
outcome with the instant the goroutine finishes waiting. -/
def deliverOne (sendReady : Option Nat) : DeliveryResult × Nat :=
  match sendReady with
  | some rt => if rt ≤ deliveryTimeout then (.sent, rt) else (.dropped, deliveryTimeout)
  | none => (.dropped, deliveryTimeout)

/-- `sumSquaresSequential` from `go-sum-benchmark/main.go`. -/
def sumSquaresSequential (data : List Int) : Int :=
  data.foldl (fun sum v => sum + v * v) 0

/-- The chunk size computed by `sumSquaresConcurrent`:
`(len(data) + workers - 1) / workers`. -/
def chunkSizeOf (data : List Int) (workers : Nat) : Nat :=
  (data.length + workers - 1) / workers

/-- Go slice expression `data[lo:hi]`: panics (here `none`) unless
`lo ≤ hi ≤ len(data)`. -/
def goSlice (data : List Int) (lo hi : Nat) : Option (List Int) :=
  if lo ≤ hi ∧ hi ≤ data.length then some ((data.drop lo).take (hi - lo)) else none

/-- The body of each worker goroutine: sum of squares over its chunk. -/
def chunkSum (chunk : List Int) : Int :=
  chunk.foldl (fun sum v => sum + v * v) 0

/-- The spawn loop of `sumSquaresConcurrent`, iterating `i` over the worker
indices and adding up the chunk sums (channel receives are added; addition
is commutative, so accumulating in index order is faithful).  `none` models
the slice-bounds panic. -/
def concLoop (data : List Int) (cs i : Nat) : Nat → Option Int
  | 0 => some 0
  | rem + 1 =>
      match goSlice data (i * cs) (min (i * cs + cs) data.length) with
      | none => none
      | some chunk =>
          match concLoop data cs (i + 1) rem with
          | none => none
          | some rest => some (chunkSum chunk + rest)

/-- `sumSquaresConcurrent` from `go-sum-benchmark/main.go`; `workers = 0`
would divide by zero in Go (a panic), modelled as `none`. -/
def sumSquaresConcurrent (data : List Int) (workers : Nat) : Option Int :=
  if workers = 0 then none
  else concLoop data (chunkSizeOf data workers) 0 workers

/-- Sum of squares, structurally recursive (proof-side restatement of the
fold in `sumSquaresSequential`). -/
def sqSum : List Int → Int
  | [] => 0
  | v :: rest => v * v + sqSum rest

/-- Invariant of every broker state reachable through the public API:
topics occur once in the map, each topic's set has no duplicates, every
handle in a set or in the close log was allocated (is below the allocation
counter), a handle sits in at most one entry, the close log has no repeats,
a closed handle is in no set while the loop still runs, and every recorded
capacity belongs to an allocated handle. -/
structure ApiInv (s : ApiState) : Prop where
  keyNodup : (s.broker.subscriptions.map Prod.fst).Nodup
  perNodup : ∀ p ∈ s.broker.subscriptions, p.2.Nodup
  uniqOwner : ∀ p ∈ s.broker.subscriptions, ∀ q ∈ s.broker.subscriptions,
    ∀ h, h ∈ p.2 → h ∈ q.2 → p = q
  subBound : ∀ p ∈ s.broker.subscriptions, ∀ h ∈ p.2, h < s.nextHandle
  closedNodup : s.closedLog.Nodup
  closedBound : ∀ h ∈ s.closedLog, h < s.nextHandle
  closedNotReg : s.broker.stopped = false →
    ∀ h ∈ s.closedLog, ∀ p ∈ s.broker.subscriptions, h ∉ p.2
  capsBound : ∀ c ∈ s.caps, c.1 < s.nextHandle

/-! ### Basic lemmas about the map operations -/

theorem lookupTopic_setTopic_self (subs : List (Topic × List Handle)) (t : Topic)
    (hs : List Handle) : lookupTopic (setTopic subs t hs) t = some hs := by
  induction subs with
  | nil => simp [setTopic, lookupTopic]
  | cons p rest ih =>
      by_cases hp : p.1 = t
      · simp [setTopic, hp, lookupTopic]
      · simp [setTopic, hp, lookupTopic, ih]

theorem lookupTopic_setTopic_ne {subs : List (Topic × List Handle)} {t t' : Topic}
    {hs : List Handle} (hne : t' ≠ t) :
    lookupTopic (setTopic subs t hs) t' = lookupTopic subs t' := by
  induction subs with
  | nil => simp [setTopic, lookupTopic, Ne.symm hne]
  | cons p rest ih =>
      by_cases hp : p.1 = t
      · have hpt : p.1 ≠ t' := by rw [hp]; exact Ne.symm hne
        simp [setTopic, hp, lookupTopic, Ne.symm hne, hpt]
      · by_cases hp' : p.1 = t'
        · simp [setTopic, hp, lookupTopic, hp', hne]
        · simp [setTopic, hp, lookupTopic, hp', ih]

theorem lookupTopic_mem {subs : List (Topic × List Handle)} {t : Topic}
    {hs : List Handle} (h : lookupTopic subs t = some hs) : (t, hs) ∈ subs := by
  induction subs with
  | nil => simp [lookupTopic] at h
  | cons p rest ih =>
      by_cases hp : p.1 = t
      · simp only [lookupTopic, if_pos hp] at h
        cases h
        have hpe : (t, p.2) = p := by rw [← hp]
        rw [hpe]
        exact List.mem_cons_self p rest
      · simp only [lookupTopic, if_neg hp] at h
        exact List.mem_cons_of_mem p (ih h)

theorem setTopic_lookup_self {subs : List (Topic × List Handle)} {t : Topic}
    {hs : List Handle} (h : lookupTopic subs t = some hs) : setTopic subs t hs = subs := by
  induction subs with
  | nil => simp [lookupTopic] at h
  | cons p rest ih =>
      by_cases hp : p.1 = t
      · simp only [lookupTopic, if_pos hp] at h
        cases h
        simp only [setTopic, if_pos hp]
        have hpe : (t, p.2) = p := by rw [← hp]
        rw [hpe]
      · simp only [lookupTopic, if_neg hp] at h
        simp [setTopic, hp, ih h]

theorem mem_setTopic {subs : List (Topic × List Handle)} {t : Topic} {hs : List Handle}
    {p : Topic × List Handle} (h : p ∈ setTopic subs t hs) : p = (t, hs) ∨ p ∈ subs := by
  induction subs with
  | nil => simpa [setTopic] using h
  | cons q rest ih =>
      by_cases hq : q.1 = t
      · simp only [setTopic, hq, if_pos] at h
        rcases List.mem_cons.mp h with h1 | h2
        · exact Or.inl h1
        · exact Or.inr (List.mem_cons_of_mem q h2)
      · simp only [setTopic, hq, if_neg, if_false] at h
        rcases List.mem_cons.mp h with h1 | h2
        · exact Or.inr (h1 ▸ List.mem_cons_self q rest)
        · rcases ih h2 with h3 | h4
          · exact Or.inl h3
          · exact Or.inr (List.mem_cons_of_mem q h4)

theorem mem_insertH {h h' : Handle} {hs : List Handle} :
    h' ∈ insertH h hs ↔ h' = h ∨ h' ∈ hs := by
  unfold insertH
  by_cases hm : h ∈ hs
  · simp only [if_pos hm]
    constructor
    · exact Or.inr
    · rintro (rfl | hh)
      · exact hm
      · exact hh
  · simp only [if_neg hm, List.mem_append, List.mem_singleton]
    tauto

theorem self_mem_insertH (h : Handle) (hs : List Handle) : h ∈ insertH h hs :=
  mem_insertH.mpr (Or.inl rfl)

theorem insertH_nodup {h : Handle} {hs : List Handle} (hnd : hs.Nodup) :
    (insertH h hs).Nodup := by
  unfold insertH
  by_cases hm : h ∈ hs
  · simpa [if_pos hm] using hnd
  · simp only [if_neg hm, List.nodup_append, List.nodup_cons]
    refine ⟨hnd, by simp, ?_⟩
    intro a ha hae
    rw [List.mem_singleton] at hae
    exact hm (hae ▸ ha)

theorem insertH_of_mem {h : Handle} {hs : List Handle} (hm : h ∈ hs) :
    insertH h hs = hs := by
  simp [insertH, hm]

theorem mem_allHandles {subs : List (Topic × List Handle)} {h : Handle} :
    h ∈ allHandles subs ↔ ∃ p ∈ subs, h ∈ p.2 := by
  induction subs with
  | nil => simp [allHandles]
  | cons p rest ih =>
      simp only [allHandles, List.mem_append, ih, List.mem_cons]
      constructor
      · rintro (hh | ⟨q, hq, hhq⟩)
        · exact ⟨p, Or.inl rfl, hh⟩
        · exact ⟨q, Or.inr hq, hhq⟩
      · rintro ⟨q, (rfl | hq), hhq⟩
        · exact Or.inl hhq
        · exact Or.inr ⟨q, hq, hhq⟩

theorem closesOf_map_close (l : List Handle) : closesOf (l.map Ev.close) = l := by
  induction l with
  | nil => rfl
  | cons a rest ih => simp [closesOf, List.filterMap_cons] at ih ⊢; exact ih

theorem closesOf_map_deliver (l : List Handle) (m : Message) :
    closesOf (l.map fun h => Ev.deliver h m) = [] := by
  induction l with
  | nil => rfl
  | cons a rest ih => simp [closesOf, List.filterMap_cons] at ih ⊢

theorem closesOf_append (l1 l2 : List Ev) :
    closesOf (l1 ++ l2) = closesOf l1 ++ closesOf l2 := by
  simp [closesOf, List.filterMap_append]

theorem deliveredTo_append (l1 l2 : List Ev) (h : Handle) :
    deliveredTo (l1 ++ l2) h = deliveredTo l1 h ++ deliveredTo l2 h := by
  simp [deliveredTo, List.filterMap_append]

theorem deliveredTo_map_close (l : List Handle) (h : Handle) :
    deliveredTo (l.map Ev.close) h = [] := by
  induction l with
  | nil => rfl
  | cons a rest ih => simp [deliveredTo, List.filterMap_cons] at ih ⊢

theorem deliveredTo_cons (e : Ev) (evs : List Ev) (h : Handle) :
    deliveredTo (e :: evs) h =
      (match e with
       | Ev.deliver h' m => if h' = h then [m.payload] else []
       | Ev.close _ => []) ++ deliveredTo evs h := by
  cases e with
  | close hh => simp [deliveredTo, List.filterMap_cons]
  | deliver h' m => by_cases hh : h' = h <;> simp [deliveredTo, List.filterMap_cons, hh]

theorem deliveredTo_map_deliver {hs : List Handle} (hnd : hs.Nodup) (m : Message)
    (h : Handle) :
    deliveredTo (hs.map fun h' => Ev.deliver h' m) h
      = if h ∈ hs then [m.payload] else [] := by
  induction hs with
  | nil => rfl
  | cons a rest ih =>
      have hr : rest.Nodup := (List.nodup_cons.mp hnd).2
      have hnm : a ∉ rest := (List.nodup_cons.mp hnd).1
      rw [List.map_cons, deliveredTo_cons, ih hr]
      by_cases ha : a = h
      · subst ha
        simp [hnm]
      · simp [ha, Ne.symm ha, List.mem_cons]

theorem runStep_stopped {s : BrokerState} (h : s.stopped = true) (r : Request) :
    runStep s r = (s, []) := by
  simp [runStep, h]

theorem runReqs_stopped {s : BrokerState} (h : s.stopped = true) (rs : List Request) :
    runReqs s rs = (s, []) := by
  induction rs with
  | nil => rfl
  | cons r rest ih => simp [runReqs, runStep_stopped h, ih]

theorem runStep_stopped_eq {s : BrokerState} {r : Request} (h : r ≠ Request.stop) :
    (runStep s r).1.stopped = s.stopped := by
  cases hst : s.stopped
  · cases r with
    | sub t hh => simp [runStep, hst]
    | unsub t hh =>
        cases hl : lookupTopic s.subscriptions t with
        | some hs => by_cases hm : hh ∈ hs <;> simp [runStep, hst, hl, hm]
        | none => simp [runStep, hst, hl]
    | pub m =>
        cases hl : lookupTopic s.subscriptions m.topic with
        | some hs => simp [runStep, hst, hl]
        | none => simp [runStep, hst, hl]
    | stop => exact absurd rfl h
  · rw [runStep_stopped hst]
    exact hst

/-! ### Equations for the individual run-loop branches -/

theorem runStep_sub_eq {s : BrokerState} (hst : s.stopped = false) (t : Topic) (h : Handle) :
    runStep s (Request.sub t h) =
      ({ s with subscriptions :=
          setTopic s.subscriptions t (insertH h ((lookupTopic s.subscriptions t).getD [])) },
       []) := by
  simp [runStep, hst]

theorem runStep_unsub_mem_eq {s : BrokerState} (hst : s.stopped = false) {t : Topic}
    {h : Handle} {hs : List Handle} (hl : lookupTopic s.subscriptions t = some hs)
    (hm : h ∈ hs) :
    runStep s (Request.unsub t h) =
      ({ s with subscriptions := setTopic s.subscriptions t (hs.erase h) },
       [Ev.close h]) := by
  simp [runStep, hst, hl, hm]

theorem runStep_unsub_notmem_eq {s : BrokerState} (hst : s.stopped = false) {t : Topic}
    {h : Handle} {hs : List Handle} (hl : lookupTopic s.subscriptions t = some hs)
    (hm : h ∉ hs) :
    runStep s (Request.unsub t h) = (s, []) := by
  simp [runStep, hst, hl, hm]

theorem runStep_unsub_none_eq {s : BrokerState} (hst : s.stopped = false) {t : Topic}
    {h : Handle} (hl : lookupTopic s.subscriptions t = none) :
    runStep s (Request.unsub t h) = (s, []) := by
  simp [runStep, hst, hl]

theorem runStep_pub_some_eq {s : BrokerState} (hst : s.stopped = false) {m : Message}
    {hs : List Handle} (hl : lookupTopic s.subscriptions m.topic = some hs) :
    runStep s (Request.pub m) = (s, hs.map fun h => Ev.deliver h m) := by
  simp [runStep, hst, hl]

theorem runStep_pub_none_eq {s : BrokerState} (hst : s.stopped = false) {m : Message}
    (hl : lookupTopic s.subscriptions m.topic = none) :
    runStep s (Request.pub m) = (s, []) := by
  simp [runStep, hst, hl]

theorem runStep_stop_eq {s : BrokerState} (hst : s.stopped = false) :
    runStep s Request.stop =
      ({ s with stopped := true, intakeClosed := true },
       (allHandles s.subscriptions).map Ev.close) := by
  simp [runStep, hst]

theorem runReqs_fst_cons (s : BrokerState) (r : Request) (rs : List Request) :
    (runReqs s (r :: rs)).1 = (runReqs (runStep s r).1 rs).1 := rfl

theorem runReqs_snd_cons (s : BrokerState) (r : Request) (rs : List Request) :
    (runReqs s (r :: rs)).2 = (runStep s r).2 ++ (runReqs (runStep s r).1 rs).2 := rfl

/-! ### Simulation of the loop by the spec-side fold -/

theorem runStep_registered {s : BrokerState} (hst : s.stopped = false) (r : Request)
    (hr : r ≠ Request.stop) (t' : Topic) :
    registered (runStep s r).1 t' = specStep (regFun s) r t' := by
  cases r with
  | sub t h =>
      rw [runStep_sub_eq hst]
      by_cases ht : t' = t
      · subst ht
        simp [registered, specStep, regFun, lookupTopic_setTopic_self]
      · simp [registered, specStep, regFun, ht, lookupTopic_setTopic_ne ht]
  | unsub t h =>
      cases hl : lookupTopic s.subscriptions t with
      | some hs =>
          by_cases hm : h ∈ hs
          · rw [runStep_unsub_mem_eq hst hl hm]
            by_cases ht : t' = t
            · subst ht
              simp [registered, specStep, regFun, lookupTopic_setTopic_self, hl]
            · simp [registered, specStep, regFun, ht, lookupTopic_setTopic_ne ht]
          · rw [runStep_unsub_notmem_eq hst hl hm]
            by_cases ht : t' = t
            · subst ht
              simp [registered, specStep, regFun, hl, List.erase_of_not_mem hm]
            · simp [registered, specStep, regFun, ht]
      | none =>
          rw [runStep_unsub_none_eq hst hl]
          by_cases ht : t' = t
          · subst ht
            simp [registered, specStep, regFun, hl]
          · simp [registered, specStep, regFun, ht]
  | pub m =>
      cases hl : lookupTopic s.subscriptions m.topic with
      | some hs =>
          rw [runStep_pub_some_eq hst hl]
          simp [specStep, regFun]
      | none =>
          rw [runStep_pub_none_eq hst hl]
          simp [specStep, regFun]
  | stop => exact absurd rfl hr

theorem runReqs_registered {s : BrokerState} (hst : s.stopped = false) {rs : List Request}
    (hok : ∀ r ∈ rs, r ≠ Request.stop) (t : Topic) :
    registered (runReqs s rs).1 t = specRun (regFun s) rs t := by
  induction rs generalizing s with
  | nil => rfl
  | cons r rest ih =>
      have hr : r ≠ Request.stop := hok r (List.mem_cons_self r rest)
      have hst' : (runStep s r).1.stopped = false := by
        rw [runStep_stopped_eq hr]; exact hst
      have hrf : regFun (runStep s r).1 = specStep (regFun s) r :=
        funext fun t' => runStep_registered hst r hr t'
      rw [runReqs_fst_cons, ih hst' (fun x hx => hok x (List.mem_cons_of_mem r hx)), hrf]
      rfl

theorem getD_nodup {s : BrokerState} (hnd : ∀ p ∈ s.subscriptions, p.2.Nodup) (t : Topic) :
    ((lookupTopic s.subscriptions t).getD []).Nodup := by
  cases hl : lookupTopic s.subscriptions t with
  | some hs => exact hnd _ (lookupTopic_mem hl)
  | none => simp

theorem runStep_perNodup {s : BrokerState} (hnd : ∀ p ∈ s.subscriptions, p.2.Nodup)
    (r : Request) : ∀ p ∈ (runStep s r).1.subscriptions, p.2.Nodup := by
  cases hst : s.stopped
  · cases r with
    | sub t h =>
        rw [runStep_sub_eq hst]
        intro p hp
        rcases mem_setTopic hp with rfl | hmem
        · exact insertH_nodup (getD_nodup hnd t)
        · exact hnd p hmem
    | unsub t h =>
        cases hl : lookupTopic s.subscriptions t with
        | some hs =>
            by_cases hm : h ∈ hs
            · rw [runStep_unsub_mem_eq hst hl hm]
              intro p hp
              rcases mem_setTopic hp with rfl | hmem
              · exact List.Nodup.erase h (hnd _ (lookupTopic_mem hl))
              · exact hnd p hmem
            · rw [runStep_unsub_notmem_eq hst hl hm]
              exact hnd
        | none =>
            rw [runStep_unsub_none_eq hst hl]
            exact hnd
    | pub m =>
        cases hl : lookupTopic s.subscriptions m.topic with
        | some hs => rw [runStep_pub_some_eq hst hl]; exact hnd
        | none => rw [runStep_pub_none_eq hst hl]; exact hnd
    | stop => rw [runStep_stop_eq hst]; exact hnd
  · rw [runStep_stopped hst]
    exact hnd

theorem runReqs_perNodup {s : BrokerState} (hnd : ∀ p ∈ s.subscriptions, p.2.Nodup)
    (rs : List Request) : ∀ p ∈ (runReqs s rs).1.subscriptions, p.2.Nodup := by
  induction rs generalizing s with
  | nil => exact hnd
  | cons r rest ih =>
      rw [runReqs_fst_cons]
      exact ih (runStep_perNodup hnd r)

theorem runStep_lookup_none {s : BrokerState} (hst : s.stopped = false) {r : Request}
    (hr : r ≠ Request.stop) (t : Topic) :
    (lookupTopic (runStep s r).1.subscriptions t = none) ↔
      (lookupTopic s.subscriptions t = none ∧ ∀ h, r ≠ Request.sub t h) := by
  cases r with
  | sub t' h' =>
      rw [runStep_sub_eq hst]
      by_cases ht : t = t'
      · subst ht
        constructor
        · intro hc
          rw [lookupTopic_setTopic_self] at hc
          exact absurd hc (by simp)
        · rintro ⟨h1, h2⟩
          exact absurd rfl (h2 h')
      · rw [lookupTopic_setTopic_ne ht]
        constructor
        · intro h1
          refine ⟨h1, fun h hc => ?_⟩
          injection hc with e1 e2
          exact ht e1.symm
        · exact fun h => h.1
  | unsub t' h' =>
      cases hl : lookupTopic s.subscriptions t' with
      | some hs =>
          by_cases hm : h' ∈ hs
          · rw [runStep_unsub_mem_eq hst hl hm]
            by_cases ht : t = t'
            · subst ht
              simp [lookupTopic_setTopic_self, hl]
            · rw [lookupTopic_setTopic_ne ht]
              simp
          · rw [runStep_unsub_notmem_eq hst hl hm]
            simp
      | none =>
          rw [runStep_unsub_none_eq hst hl]
          simp
  | pub m =>
      cases hl : lookupTopic s.subscriptions m.topic with
      | some hs => rw [runStep_pub_some_eq hst hl]; simp
      | none => rw [runStep_pub_none_eq hst hl]; simp
  | stop => exact absurd rfl hr

theorem runReqs_lookup_none {s : BrokerState} (hst : s.stopped = false) {rs : List Request}
    (hok : ∀ r ∈ rs, r ≠ Request.stop) (t : Topic) :
    (lookupTopic (runReqs s rs).1.subscriptions t = none) ↔
      (lookupTopic s.subscriptions t = none ∧ ∀ h, Request.sub t h ∉ rs) := by
  induction rs generalizing s with
  | nil => simp [runReqs]
  | cons r rest ih =>
      have hr : r ≠ Request.stop := hok r (List.mem_cons_self r rest)
      have hst' : (runStep s r).1.stopped = false := by
        rw [runStep_stopped_eq hr]; exact hst
      rw [runReqs_fst_cons, ih hst' (fun x hx => hok x (List.mem_cons_of_mem r hx)),
          runStep_lookup_none hst hr]
      constructor
      · rintro ⟨⟨h1, h2⟩, h3⟩
        refine ⟨h1, fun h hmem => ?_⟩
        rcases List.mem_cons.mp hmem with he | hm
        · exact h2 h he.symm
        · exact h3 h hm
      · rintro ⟨h1, h2⟩
        exact ⟨⟨h1, fun h he => h2 h (he ▸ List.mem_cons_self r rest)⟩,
               fun h hm => h2 h (List.mem_cons_of_mem r hm)⟩

theorem runStep_sub_noop {s : BrokerState} (hst : s.stopped = false) {t : Topic} {h : Handle}
    (hm : h ∈ registered s t) : runStep s (Request.sub t h) = (s, []) := by
  rw [runStep_sub_eq hst]
  unfold registered at hm
  cases hl : lookupTopic s.subscriptions t with
  | some hs =>
      rw [hl] at hm
      simp only [Option.getD_some] at hm ⊢
      rw [insertH_of_mem hm, setTopic_lookup_self hl]
  | none =>
      rw [hl] at hm
      simp at hm

/-! ### Simulation of the spawned-delivery trace by the spec-side sequence -/

theorem runReqs_deliveredTo {s : BrokerState} (hst : s.stopped = false)
    (hnd : ∀ p ∈ s.subscriptions, p.2.Nodup) (h : Handle) (rs : List Request) :
    deliveredTo (runReqs s rs).2 h = specDeliveries (regFun s) h rs := by
  induction rs generalizing s with
  | nil => rfl
  | cons r rest ih =>
      cases r with
      | sub t h' =>
          rw [runReqs_snd_cons, deliveredTo_append]
          have hst' : (runStep s (Request.sub t h')).1.stopped = false := by
            rw [runStep_stopped_eq (by simp)]; exact hst
          have hrf : regFun (runStep s (Request.sub t h')).1
              = specStep (regFun s) (Request.sub t h') :=
            funext fun t' => runStep_registered hst _ (by simp) t'
          rw [ih hst' (runStep_perNodup hnd _)]
          have hd : deliveredTo (runStep s (Request.sub t h')).2 h = [] := by
            rw [runStep_sub_eq hst]
            rfl
          rw [hd, hrf]
          rfl
      | unsub t h' =>
          rw [runReqs_snd_cons, deliveredTo_append]
          have hst' : (runStep s (Request.unsub t h')).1.stopped = false := by
            rw [runStep_stopped_eq (by simp)]; exact hst
          have hrf : regFun (runStep s (Request.unsub t h')).1
              = specStep (regFun s) (Request.unsub t h') :=
            funext fun t' => runStep_registered hst _ (by simp) t'
          rw [ih hst' (runStep_perNodup hnd _)]
          have hd : deliveredTo (runStep s (Request.unsub t h')).2 h = [] := by
            cases hl : lookupTopic s.subscriptions t with
            | some hs =>
                by_cases hm : h' ∈ hs
                · rw [runStep_unsub_mem_eq hst hl hm]
                  rfl
                · rw [runStep_unsub_notmem_eq hst hl hm]
                  rfl
            | none => rw [runStep_unsub_none_eq hst hl]; rfl
          rw [hd, hrf]
          rfl
      | pub m =>
          rw [runReqs_snd_cons, deliveredTo_append]
          have hst' : (runStep s (Request.pub m)).1.stopped = false := by
            rw [runStep_stopped_eq (by simp)]; exact hst
          have hrf : regFun (runStep s (Request.pub m)).1
              = specStep (regFun s) (Request.pub m) :=
            funext fun t' => runStep_registered hst _ (by simp) t'
          rw [ih hst' (runStep_perNodup hnd _)]
          have hd : deliveredTo (runStep s (Request.pub m)).2 h
              = if h ∈ regFun s m.topic then [m.payload] else [] := by
            cases hl : lookupTopic s.subscriptions m.topic with
            | some hs =>
                rw [runStep_pub_some_eq hst hl,
                    deliveredTo_map_deliver (hnd _ (lookupTopic_mem hl))]
                simp [regFun, registered, hl]
            | none =>
                rw [runStep_pub_none_eq hst hl]
                simp [regFun, registered, hl, deliveredTo]
          rw [hd, hrf]
          have hsp : specStep (regFun s) (Request.pub m) = regFun s := rfl
          rw [hsp]
          rfl
      | stop =>
          rw [runReqs_snd_cons, deliveredTo_append]
          have hstep := runStep_stop_eq hst
          have hst' : (runStep s Request.stop).1.stopped = true := by
            rw [hstep]
          rw [runReqs_stopped hst']
          rw [hstep]
          simp only [deliveredTo_map_close]
          rfl

/-! ### Key uniqueness and ownership lemmas for the subscription map -/

theorem mem_keys_setTopic {subs : List (Topic × List Handle)} {t x : Topic}
    {hs : List Handle} (h : x ∈ (setTopic subs t hs).map Prod.fst) :
    x = t ∨ x ∈ subs.map Prod.fst := by
  rcases List.mem_map.mp h with ⟨p, hp, rfl⟩
  rcases mem_setTopic hp with rfl | hmem
  · exact Or.inl rfl
  · exact Or.inr (List.mem_map_of_mem Prod.fst hmem)

theorem keys_setTopic_nodup {subs : List (Topic × List Handle)} {t : Topic}
    {hs : List Handle} (h : (subs.map Prod.fst).Nodup) :
    ((setTopic subs t hs).map Prod.fst).Nodup := by
  induction subs with
  | nil => simp [setTopic]
  | cons p rest ih =>
      rw [List.map_cons, List.nodup_cons] at h
      by_cases hp : p.1 = t
      · simp only [setTopic, if_pos hp, List.map_cons, List.nodup_cons]
        exact ⟨hp ▸ h.1, h.2⟩
      · simp only [setTopic, if_neg hp, List.map_cons, List.nodup_cons]
        refine ⟨fun hc => ?_, ih h.2⟩
        rcases mem_keys_setTopic hc with he | hmem
        · exact hp he
        · exact h.1 hmem

theorem eq_of_keys_nodup {subs : List (Topic × List Handle)}
    (h : (subs.map Prod.fst).Nodup) {p q : Topic × List Handle}
    (hp : p ∈ subs) (hq : q ∈ subs) (he : p.1 = q.1) : p = q :=
  List.inj_on_of_nodup_map h hp hq he

theorem allHandles_nodup {subs : List (Topic × List Handle)}
    (hk : (subs.map Prod.fst).Nodup)
    (hn : ∀ p ∈ subs, p.2.Nodup)
    (hu : ∀ p ∈ subs, ∀ q ∈ subs, ∀ h, h ∈ p.2 → h ∈ q.2 → p = q) :
    (allHandles subs).Nodup := by
  induction subs with
  | nil => simp [allHandles]
  | cons p rest ih =>
      rw [List.map_cons, List.nodup_cons] at hk
      simp only [allHandles]
      rw [List.nodup_append]
      refine ⟨hn p (List.mem_cons_self p rest),
        ih hk.2 (fun q hq => hn q (List.mem_cons_of_mem p hq))
          (fun a ha b hb h h1 h2 =>
            hu a (List.mem_cons_of_mem p ha) b (List.mem_cons_of_mem p hb) h h1 h2), ?_⟩
      intro a ha hac
      rcases mem_allHandles.mp hac with ⟨q, hq, haq⟩
      have hpq := hu p (List.mem_cons_self p rest) q (List.mem_cons_of_mem p hq) a ha haq
      exact hk.1 (List.mem_map_of_mem Prod.fst (by rw [hpq]; exact hq))

/-! ### Record equations for the public operations -/

theorem apiStep_subscribe_eq (s : ApiState) (t : Topic) :
    apiStep s (Op.subscribe t) =
      { broker := (runStep s.broker (Request.sub t s.nextHandle)).1
        nextHandle := s.nextHandle + 1
        caps := s.caps ++ [(s.nextHandle, subscriberCapacity)]
        closedLog := s.closedLog ++ closesOf (runStep s.broker (Request.sub t s.nextHandle)).2 } :=
  rfl

theorem apiStep_unsubscribe_eq (s : ApiState) (t : Topic) (h : Handle) :
    apiStep s (Op.unsubscribe t h) =
      { s with broker := (runStep s.broker (Request.unsub t h)).1
               closedLog := s.closedLog ++ closesOf (runStep s.broker (Request.unsub t h)).2 } :=
  rfl

theorem apiStep_publish_eq (s : ApiState) (t : Topic) (pl : Payload) :
    apiStep s (Op.publish t pl) =
      { s with broker := (runStep s.broker (Request.pub ⟨t, pl⟩)).1
               closedLog := s.closedLog ++ closesOf (runStep s.broker (Request.pub ⟨t, pl⟩)).2 } :=
  rfl

theorem apiStep_stop_eq (s : ApiState) :
    apiStep s Op.stop =
      { s with broker := (runStep s.broker Request.stop).1
               closedLog := s.closedLog ++ closesOf (runStep s.broker Request.stop).2 } :=
  rfl

/-! ### Preservation of the API invariant -/

theorem apiInv_subscribe {s : ApiState} (inv : ApiInv s) (t : Topic) :
    ApiInv (apiStep s (Op.subscribe t)) := by
  rw [apiStep_subscribe_eq]
  cases hst : s.broker.stopped
  · simp only [runStep_sub_eq hst, closesOf, List.filterMap_nil, List.append_nil]
    have hknd' : ((setTopic s.broker.subscriptions t
        (insertH s.nextHandle ((lookupTopic s.broker.subscriptions t).getD []))).map
          Prod.fst).Nodup := keys_setTopic_nodup inv.keyNodup
    have hcurmem : ∀ h, h ∈ (lookupTopic s.broker.subscriptions t).getD [] →
        ∃ p ∈ s.broker.subscriptions, p.1 = t ∧ h ∈ p.2 := by
      intro h hh
      cases hl : lookupTopic s.broker.subscriptions t with
      | some hs0 =>
          rw [hl] at hh
          exact ⟨(t, hs0), lookupTopic_mem hl, rfl, hh⟩
      | none => rw [hl] at hh; simp at hh
    constructor
    · exact hknd'
    · intro p hp
      rcases mem_setTopic hp with rfl | hm
      · exact insertH_nodup (getD_nodup inv.perNodup t)
      · exact inv.perNodup p hm
    · intro p hp q hq h hph hqh
      rcases mem_setTopic hp with rfl | hpm <;> rcases mem_setTopic hq with hq' | hqm
      · rw [hq']
      · rcases mem_insertH.mp hph with rfl | hc
        · exact absurd (inv.subBound q hqm _ hqh) (lt_irrefl _)
        · rcases hcurmem _ hc with ⟨e0, he0, he0t, hh0⟩
          have he0q : e0 = q := inv.uniqOwner e0 he0 q hqm _ hh0 hqh
          exact eq_of_keys_nodup hknd' hp hq (by rw [← he0q, he0t])
      · rw [hq'] at hqh hq ⊢
        rcases mem_insertH.mp hqh with rfl | hc
        · exact absurd (inv.subBound p hpm _ hph) (lt_irrefl _)
        · rcases hcurmem _ hc with ⟨e0, he0, he0t, hh0⟩
          have he0p : e0 = p := inv.uniqOwner e0 he0 p hpm _ hh0 hph
          exact eq_of_keys_nodup hknd' hp hq (by rw [← he0p, he0t])
      · exact inv.uniqOwner p hpm q hqm h hph hqh
    · intro p hp h hh
      rcases mem_setTopic hp with rfl | hm
      · rcases mem_insertH.mp hh with rfl | hc
        · exact Nat.lt_succ_self _
        · rcases hcurmem _ hc with ⟨e0, he0, _, hh0⟩
          exact Nat.lt_succ_of_lt (inv.subBound e0 he0 _ hh0)
      · exact Nat.lt_succ_of_lt (inv.subBound p hm h hh)
    · exact inv.closedNodup
    · exact fun h hc => Nat.lt_succ_of_lt (inv.closedBound h hc)
    · intro _ h hc p hp
      rcases mem_setTopic hp with rfl | hm
      · intro hh
        rcases mem_insertH.mp hh with rfl | hcu
        · exact absurd (inv.closedBound _ hc) (lt_irrefl _)
        · rcases hcurmem _ hcu with ⟨e0, he0, _, hh0⟩
          exact inv.closedNotReg hst h hc e0 he0 hh0
      · exact inv.closedNotReg hst h hc p hm
    · intro c hc
      rcases List.mem_append.mp hc with hm | hm
      · exact Nat.lt_succ_of_lt (inv.capsBound c hm)
      · rw [List.mem_singleton] at hm
        rw [hm]
        exact Nat.lt_succ_self _
  · simp only [runStep_stopped hst, closesOf, List.filterMap_nil, List.append_nil]
    constructor
    · exact inv.keyNodup
    · exact inv.perNodup
    · exact inv.uniqOwner
    · exact fun p hp h hh => Nat.lt_succ_of_lt (inv.subBound p hp h hh)
    · exact inv.closedNodup
    · exact fun h hc => Nat.lt_succ_of_lt (inv.closedBound h hc)
    · intro hstop'
      rw [hst] at hstop'
      cases hstop'
    · intro c hc
      rcases List.mem_append.mp hc with hm | hm
      · exact Nat.lt_succ_of_lt (inv.capsBound c hm)
      · rw [List.mem_singleton] at hm
        rw [hm]
        exact Nat.lt_succ_self _

theorem apiInv_unsubscribe {s : ApiState} (inv : ApiInv s) (t : Topic) (h0 : Handle) :
    ApiInv (apiStep s (Op.unsubscribe t h0)) := by
  rw [apiStep_unsubscribe_eq]
  cases hst : s.broker.stopped
  · cases hl : lookupTopic s.broker.subscriptions t with
    | some hs0 =>
        by_cases hm : h0 ∈ hs0
        · simp only [runStep_unsub_mem_eq hst hl hm]
          have he0 : (t, hs0) ∈ s.broker.subscriptions := lookupTopic_mem hl
          have hnd0 : hs0.Nodup := inv.perNodup _ he0
          have hknd' : ((setTopic s.broker.subscriptions t (hs0.erase h0)).map
              Prod.fst).Nodup := keys_setTopic_nodup inv.keyNodup
          have hereg : (t, hs0.erase h0) ∈ setTopic s.broker.subscriptions t (hs0.erase h0) :=
            lookupTopic_mem (lookupTopic_setTopic_self _ _ _)
          have h0notin : h0 ∉ s.closedLog :=
            fun hc => inv.closedNotReg hst h0 hc (t, hs0) he0 hm
          constructor
          · exact hknd'
          · intro p hp
            rcases mem_setTopic hp with rfl | hpm
            · exact List.Nodup.erase h0 hnd0
            · exact inv.perNodup p hpm
          · intro p hp q hq h hph hqh
            rcases mem_setTopic hp with rfl | hpm <;> rcases mem_setTopic hq with hq' | hqm
            · rw [hq']
            · have he0q : (t, hs0) = q :=
                inv.uniqOwner (t, hs0) he0 q hqm h (List.mem_of_mem_erase hph) hqh
              exact eq_of_keys_nodup hknd' hp hq (by rw [← he0q])
            · rw [hq'] at hqh hq ⊢
              have he0p : (t, hs0) = p :=
                inv.uniqOwner (t, hs0) he0 p hpm h (List.mem_of_mem_erase hqh) hph
              exact eq_of_keys_nodup hknd' hp hq (by rw [← he0p])
            · exact inv.uniqOwner p hpm q hqm h hph hqh
          · intro p hp h hh
            rcases mem_setTopic hp with rfl | hpm
            · exact inv.subBound (t, hs0) he0 h (List.mem_of_mem_erase hh)
            · exact inv.subBound p hpm h hh
          · show (s.closedLog ++ closesOf [Ev.close h0]).Nodup
            rw [List.nodup_append]
            refine ⟨inv.closedNodup, by simp [closesOf], ?_⟩
            intro a ha hae
            simp only [closesOf, List.filterMap_cons, List.filterMap_nil] at hae
            rw [List.mem_singleton] at hae
            exact h0notin (hae ▸ ha)
          · intro h hc
            rcases List.mem_append.mp hc with hcm | hcm
            · exact inv.closedBound h hcm
            · simp only [closesOf, List.filterMap_cons, List.filterMap_nil] at hcm
              rw [List.mem_singleton] at hcm
              rw [hcm]
              exact inv.subBound (t, hs0) he0 h0 hm
          · intro _ h hc p hp
            rcases List.mem_append.mp hc with hcm | hcm
            · rcases mem_setTopic hp with rfl | hpm
              · intro hh
                exact inv.closedNotReg hst h hcm (t, hs0) he0 (List.mem_of_mem_erase hh)
              · exact inv.closedNotReg hst h hcm p hpm
            · simp only [closesOf, List.filterMap_cons, List.filterMap_nil] at hcm
              rw [List.mem_singleton] at hcm
              rw [hcm]
              rcases mem_setTopic hp with rfl | hpm
              · exact hnd0.not_mem_erase
              · intro hh
                have hpe : (t, hs0) = p := inv.uniqOwner (t, hs0) he0 p hpm h0 hm hh
                have heq : p = (t, hs0.erase h0) :=
                  eq_of_keys_nodup hknd' hp hereg (by rw [← hpe])
                exact hnd0.not_mem_erase (heq ▸ hh)
          · exact inv.capsBound
        · simp only [runStep_unsub_notmem_eq hst hl hm, closesOf, List.filterMap_nil,
            List.append_nil]
          exact inv
    | none =>
        simp only [runStep_unsub_none_eq hst hl, closesOf, List.filterMap_nil,
          List.append_nil]
        exact inv
  · simp only [runStep_stopped hst, closesOf, List.filterMap_nil, List.append_nil]
    exact inv

theorem apiInv_publish {s : ApiState} (inv : ApiInv s) (t : Topic) (pl : Payload) :
    ApiInv (apiStep s (Op.publish t pl)) := by
  rw [apiStep_publish_eq]
  cases hst : s.broker.stopped
  · cases hl : lookupTopic s.broker.subscriptions t with
    | some hs =>
        have hl' : lookupTopic s.broker.subscriptions (Message.mk t pl).topic = some hs := hl
        simp only [runStep_pub_some_eq hst hl', closesOf_map_deliver, List.append_nil]
        exact inv
    | none =>
        have hl' : lookupTopic s.broker.subscriptions (Message.mk t pl).topic = none := hl
        simp only [runStep_pub_none_eq hst hl', closesOf, List.filterMap_nil, List.append_nil]
        exact inv
  · simp only [runStep_stopped hst, closesOf, List.filterMap_nil, List.append_nil]
    exact inv

theorem apiInv_stop {s : ApiState} (inv : ApiInv s) : ApiInv (apiStep s Op.stop) := by
  rw [apiStep_stop_eq]
  cases hst : s.broker.stopped
  · simp only [runStep_stop_eq hst, closesOf_map_close]
    constructor
    · exact inv.keyNodup
    · exact inv.perNodup
    · exact inv.uniqOwner
    · exact inv.subBound
    · rw [List.nodup_append]
      refine ⟨inv.closedNodup, allHandles_nodup inv.keyNodup inv.perNodup inv.uniqOwner, ?_⟩
      intro a ha hac
      rcases mem_allHandles.mp hac with ⟨p, hp, hap⟩
      exact inv.closedNotReg hst a ha p hp hap
    · intro h hc
      rcases List.mem_append.mp hc with hcm | hcm
      · exact inv.closedBound h hcm
      · rcases mem_allHandles.mp hcm with ⟨p, hp, hap⟩
        exact inv.subBound p hp h hap
    · intro hstop'
      cases hstop'
    · exact inv.capsBound
  · simp only [runStep_stopped hst, closesOf, List.filterMap_nil, List.append_nil]
    exact inv

theorem apiInv_apiStep {s : ApiState} (inv : ApiInv s) (o : Op) : ApiInv (apiStep s o) := by
  cases o with
  | subscribe t => exact apiInv_subscribe inv t
  | unsubscribe t h => exact apiInv_unsubscribe inv t h
  | publish t pl => exact apiInv_publish inv t pl
  | stop => exact apiInv_stop inv

theorem apiInv_init : ApiInv apiInit := by
  constructor <;> simp [apiInit, NewBroker]

theorem apiInv_apiRun {s : ApiState} (inv : ApiInv s) (ops : List Op) :
    ApiInv (apiRun s ops) := by
  induction ops generalizing s with
  | nil => exact inv
  | cons o rest ih => exact ih (apiInv_apiStep inv o)

/-! ### Arithmetic lemmas for the sum-of-squares benchmark -/

theorem foldl_sq (l : List Int) : ∀ a : Int, l.foldl (fun sum v => sum + v * v) a = a + sqSum l := by
  induction l with
  | nil => intro a; simp [sqSum]
  | cons v rest ih =>
      intro a
      simp only [List.foldl_cons, sqSum, ih]
      ring

theorem sumSquaresSequential_eq_sqSum (data : List Int) :
    sumSquaresSequential data = sqSum data := by
  unfold sumSquaresSequential
  rw [foldl_sq]
  ring

theorem chunkSum_eq_sqSum (c : List Int) : chunkSum c = sqSum c := by
  unfold chunkSum
  rw [foldl_sq]
  ring

theorem sqSum_append (l1 l2 : List Int) : sqSum (l1 ++ l2) = sqSum l1 + sqSum l2 := by
  induction l1 with
  | nil => simp [sqSum]
  | cons v rest ih =>
      simp only [List.cons_append, sqSum]
      show v * v + sqSum (rest ++ l2) = v * v + sqSum rest + sqSum l2
      rw [ih]
      ring

theorem sqSum_take_drop (l : List Int) (n : Nat) :
    sqSum l = sqSum (l.take n) + sqSum (l.drop n) := by
  conv_lhs => rw [← List.take_append_drop n l]
  rw [sqSum_append]

theorem concLoop_some (data : List Int) (cs : Nat) :
    ∀ rem i, data.length ≤ (i + rem) * cs → (∀ j, j < rem → (i + j) * cs ≤ data.length) →
      concLoop data cs i rem = some (sqSum (data.drop (i * cs))) := by
  intro rem
  induction rem with
  | zero =>
      intro i h1 _
      have hnil : data.drop (i * cs) = [] :=
        List.drop_eq_nil_of_le (by simpa using h1)
      rw [hnil]
      rfl
  | succ rem ih =>
      intro i h1 h2
      have hstart : i * cs ≤ data.length := by
        have := h2 0 (Nat.succ_pos rem)
        simpa using this
      have hlo : i * cs ≤ min (i * cs + cs) data.length :=
        le_min (Nat.le_add_right _ _) hstart
      have hhi : min (i * cs + cs) data.length ≤ data.length := min_le_right _ _
      have hslice : goSlice data (i * cs) (min (i * cs + cs) data.length)
          = some ((data.drop (i * cs)).take cs) := by
        unfold goSlice
        rw [if_pos ⟨hlo, hhi⟩]
        congr 1
        by_cases hcase : i * cs + cs ≤ data.length
        · rw [min_eq_left hcase, Nat.add_sub_cancel_left]
        · rw [min_eq_right (le_of_not_le hcase)]
          have hlen : (data.drop (i * cs)).length = data.length - i * cs :=
            List.length_drop _ _
          rw [List.take_of_length_le (by omega), List.take_of_length_le (by omega)]
      have hrec : concLoop data cs (i + 1) rem = some (sqSum (data.drop ((i + 1) * cs))) := by
        apply ih
        · rw [show i + 1 + rem = i + (rem + 1) by omega]
          exact h1
        · intro j hj
          rw [show i + 1 + j = i + (j + 1) by omega]
          exact h2 (j + 1) (Nat.succ_lt_succ hj)
      simp only [concLoop, hslice, hrec]
      rw [chunkSum_eq_sqSum]
      have hdd : data.drop ((i + 1) * cs) = (data.drop (i * cs)).drop cs := by
        rw [List.drop_drop, Nat.succ_mul, Nat.add_comm (i * cs) cs]
      rw [hdd, ← sqSum_take_drop]

theorem le_mul_ceilDiv (len w : Nat) (hw : 1 ≤ w) : len ≤ w * ((len + w - 1) / w) := by
  have h0 : 0 < w := hw
  have h1 : (len + w - 1) / w < (len + w - 1) / w + 1 := Nat.lt_succ_self _
  have h2 : len + w - 1 < ((len + w - 1) / w + 1) * w := (Nat.div_lt_iff_lt_mul h0).mp h1
  have h3 : ((len + w - 1) / w + 1) * w = w * ((len + w - 1) / w) + w := by ring
  rw [h3] at h2
  generalize w * ((len + w - 1) / w) = X at h2 ⊢
  omega

theorem runReqs_stopped_eq {s : BrokerState} {rs : List Request}
    (hok : ∀ r ∈ rs, r ≠ Request.stop) : (runReqs s rs).1.stopped = s.stopped := by
  induction rs generalizing s with
  | nil => rfl
  | cons r rest ih =>
      rw [runReqs_fst_cons, ih (fun x hx => hok x (List.mem_cons_of_mem r hx)),
          runStep_stopped_eq (hok r (List.mem_cons_self r rest))]

theorem regFun_NewBroker : regFun NewBroker = fun _ => [] := by
  funext t
  rfl

/-! ### The claims -/

/-- Claim C1, counterexample.  As stated, the invariant is asserted to hold
"in particular when the same handle is registered under more than one topic".
At the level of the requests the coordinating routine consumes — where the
data model explicitly permits one handle under several topics — it is false:
registering handle 0 under topics "a" and "b" and then unsubscribing it from
both closes its channel twice, and right after the first close (the third
request) the handle is still present in topic "b"'s set although the broker
has not stopped. -/
theorem C1_counterexample :
    closesOf (runReqs NewBroker [Request.sub "a" 0, Request.sub "b" 0,
      Request.unsub "a" 0, Request.unsub "b" 0]).2 = [0, 0] ∧
    (runReqs NewBroker [Request.sub "a" 0, Request.sub "b" 0,
      Request.unsub "a" 0]).2 = [Ev.close 0] ∧
    0 ∈ registered (runReqs NewBroker [Request.sub "a" 0, Request.sub "b" 0,
      Request.unsub "a" 0]).1 "b" ∧
    (runReqs NewBroker [Request.sub "a" 0, Request.sub "b" 0,
      Request.unsub "a" 0]).1.stopped = false := by
  decide

/-- Claim C1, amended.  Through the public API every `Subscribe` allocates a
fresh channel, so a handle is registered under at most one topic; under that
reachability each handle's channel is closed at most once across all
Unsubscribe and Stop processing (the close log never repeats a handle), and
any closed handle is absent from every topic's subscription set unless the
broker has fully stopped.  Quantifying over all operation sequences covers
every reachable state, in particular the state immediately after each
close. -/
theorem C1_close_once_api (ops : List Op) :
    (apiRun apiInit ops).closedLog.Nodup ∧
    ∀ h ∈ (apiRun apiInit ops).closedLog,
      (apiRun apiInit ops).broker.stopped = true ∨
        ∀ p ∈ (apiRun apiInit ops).broker.subscriptions, h ∉ p.2 := by
  have inv := apiInv_apiRun apiInv_init ops
  refine ⟨inv.closedNodup, ?_⟩
  intro h hc
  cases hst : (apiRun apiInit ops).broker.stopped
  · exact Or.inr (inv.closedNotReg hst h hc)
  · exact Or.inl rfl

/-- Claim C2 (confirmed).  For every sequence of subscribe/unsubscribe
requests processed by a fresh broker, the registered set of any topic equals
the spec-side fold (subscribes minus unsubscribes in submission order), has
no duplicates, a topic's entry exists exactly when some subscribe for it was
processed (created on first subscription), and re-submitting a subscribe for
an already-registered handle is a no-op. -/
theorem C2_registered_sets (rs : List Request) (t : Topic)
    (hok : ∀ r ∈ rs, isSubOrUnsub r = true) :
    registered (runReqs NewBroker rs).1 t = specRun (fun _ => []) rs t ∧
    (registered (runReqs NewBroker rs).1 t).Nodup ∧
    (lookupTopic (runReqs NewBroker rs).1.subscriptions t ≠ none ↔
      ∃ h, Request.sub t h ∈ rs) ∧
    ∀ h ∈ registered (runReqs NewBroker rs).1 t,
      runStep (runReqs NewBroker rs).1 (Request.sub t h) = ((runReqs NewBroker rs).1, []) := by
  have hnostop : ∀ r ∈ rs, r ≠ Request.stop := by
    intro r hr hc
    have hv := hok r hr
    rw [hc] at hv
    simp [isSubOrUnsub] at hv
  have hstfin : (runReqs NewBroker rs).1.stopped = false := runReqs_stopped_eq hnostop
  have hpn := runReqs_perNodup (s := NewBroker) (by intro p hp; cases hp) rs
  refine ⟨?_, ?_, ?_, ?_⟩
  · rw [runReqs_registered rfl hnostop t, regFun_NewBroker]
  · exact getD_nodup hpn t
  · have hln := runReqs_lookup_none (s := NewBroker) rfl hnostop t
    have hbase : lookupTopic NewBroker.subscriptions t = none := rfl
    rw [Ne, hln, hbase]
    simp only [true_and]
    push_neg
    rfl
  · intro h hm
    exact runStep_sub_noop hstfin hm

theorem C2_registered_sets_witness :
    (∀ r ∈ [Request.sub "t" 0, Request.sub "t" 1, Request.unsub "t" 0, Request.sub "t" 1],
      isSubOrUnsub r = true) ∧
    registered (runReqs NewBroker [Request.sub "t" 0, Request.sub "t" 1,
        Request.unsub "t" 0, Request.sub "t" 1]).1 "t"
      = specRun (fun _ => []) [Request.sub "t" 0, Request.sub "t" 1,
        Request.unsub "t" 0, Request.sub "t" 1] "t" ∧
    registered (runReqs NewBroker [Request.sub "t" 0, Request.sub "t" 1,
        Request.unsub "t" 0, Request.sub "t" 1]).1 "t" = [1] :=
  ⟨by decide,
   (C2_registered_sets [Request.sub "t" 0, Request.sub "t" 1, Request.unsub "t" 0,
      Request.sub "t" 1] "t" (by decide)).1,
   by decide⟩

/-- Claim C3 (confirmed).  Receiving the stop signal while running: the loop
closes exactly the channels of the currently registered handles (end of
stream for each), terminates with its intake channels closed, spawns no
delivery, and afterwards every request — in particular any publish — has no
effect and produces no event, so no handle receives a message published
after Stop. -/
theorem C3_stop_behaviour (s : BrokerState) (hrun : s.stopped = false) :
    (runStep s Request.stop).1.stopped = true ∧
    (runStep s Request.stop).1.intakeClosed = true ∧
    (∀ h, Ev.close h ∈ (runStep s Request.stop).2 ↔ ∃ p ∈ s.subscriptions, h ∈ p.2) ∧
    (∀ h m, Ev.deliver h m ∉ (runStep s Request.stop).2) ∧
    ∀ r, runStep (runStep s Request.stop).1 r = ((runStep s Request.stop).1, []) := by
  rw [runStep_stop_eq hrun]
  refine ⟨rfl, rfl, ?_, ?_, ?_⟩
  · intro h
    rw [← mem_allHandles]
    constructor
    · intro hm
      rcases List.mem_map.mp hm with ⟨a, ha, he⟩
      injection he with e
      exact e ▸ ha
    · exact fun hm => List.mem_map_of_mem Ev.close hm
  · intro h m hm
    rcases List.mem_map.mp hm with ⟨a, ha, he⟩
    cases he
  · intro r
    exact runStep_stopped rfl r

theorem C3_stop_behaviour_witness :
    (BrokerState.mk [("t", [0, 1])] false false).stopped = false ∧
    (runStep (BrokerState.mk [("t", [0, 1])] false false) Request.stop).1.stopped = true ∧
    (runStep (BrokerState.mk [("t", [0, 1])] false false) Request.stop).2
      = [Ev.close 0, Ev.close 1] :=
  ⟨rfl, (C3_stop_behaviour (BrokerState.mk [("t", [0, 1])] false false) rfl).1, by decide⟩

/-- Claim C4 (confirmed).  Processing an unsubscribe request: when the handle
is registered under the topic it is removed from that set and exactly one
close of its channel is emitted; when it is absent (already removed, unknown
topic or unknown handle) the whole state is unchanged, no event is emitted
and no error exists to be raised. -/
theorem C4_unsubscribe_cases (s : BrokerState) (t : Topic) (h : Handle)
    (hrun : s.stopped = false) (hnd : (registered s t).Nodup) :
    (h ∈ registered s t →
      h ∉ registered (runStep s (Request.unsub t h)).1 t ∧
      (runStep s (Request.unsub t h)).2 = [Ev.close h]) ∧
    (h ∉ registered s t → runStep s (Request.unsub t h) = (s, [])) := by
  constructor
  · intro hm
    cases hl : lookupTopic s.subscriptions t with
    | some hs =>
        have hm' : h ∈ hs := by
          unfold registered at hm
          rw [hl] at hm
          simpa using hm
        have hndhs : hs.Nodup := by
          unfold registered at hnd
          rw [hl] at hnd
          simpa using hnd
        rw [runStep_unsub_mem_eq hrun hl hm']
        refine ⟨?_, rfl⟩
        show h ∉ (lookupTopic (setTopic s.subscriptions t (hs.erase h)) t).getD []
        rw [lookupTopic_setTopic_self]
        simp only [Option.getD_some]
        exact hndhs.not_mem_erase
    | none =>
        unfold registered at hm
        rw [hl] at hm
        simp at hm
  · intro hm
    cases hl : lookupTopic s.subscriptions t with
    | some hs =>
        have hm' : h ∉ hs := by
          unfold registered at hm
          rw [hl] at hm
          simpa using hm
        exact runStep_unsub_notmem_eq hrun hl hm'
    | none => exact runStep_unsub_none_eq hrun hl

theorem C4_unsubscribe_cases_witness :
    (BrokerState.mk [("t", [3])] false false).stopped = false ∧
    (registered (BrokerState.mk [("t", [3])] false false) "t").Nodup ∧
    (3 ∉ registered (runStep (BrokerState.mk [("t", [3])] false false)
        (Request.unsub "t" 3)).1 "t" ∧
      (runStep (BrokerState.mk [("t", [3])] false false) (Request.unsub "t" 3)).2
        = [Ev.close 3]) ∧
    runStep (BrokerState.mk [("t", [3])] false false) (Request.unsub "u" 3)
      = (BrokerState.mk [("t", [3])] false false, []) :=
  ⟨rfl, by decide,
   (C4_unsubscribe_cases (BrokerState.mk [("t", [3])] false false) "t" 3 rfl
      (by decide)).1 (by decide),
   (C4_unsubscribe_cases (BrokerState.mk [("t", [3])] false false) "u" 3 rfl
      (by decide)).2 (by decide)⟩

/-- Claim C5 (confirmed).  Publishing to a topic with zero registered
subscribers — whether the topic has no entry at all or an empty set — is a
silent no-op: the state is unchanged (message dropped, not queued), no
delivery task is spawned and no other event is produced. -/
theorem C5_publish_no_subscribers (s : BrokerState) (t : Topic) (pl : Payload)
    (hrun : s.stopped = false) (hempty : registered s t = []) :
    runStep s (Request.pub (Message.mk t pl)) = (s, []) := by
  cases hl : lookupTopic s.subscriptions t with
  | some hs =>
      have he : hs = [] := by
        unfold registered at hempty
        rw [hl] at hempty
        simpa using hempty
      subst he
      have hl' : lookupTopic s.subscriptions (Message.mk t pl).topic = some [] := hl
      rw [runStep_pub_some_eq hrun hl']
      simp
  | none =>
      have hl' : lookupTopic s.subscriptions (Message.mk t pl).topic = none := hl
      exact runStep_pub_none_eq hrun hl'

theorem C5_publish_no_subscribers_witness :
    (BrokerState.mk [("u", [])] false false).stopped = false ∧
    registered (BrokerState.mk [("u", [])] false false) "t" = [] ∧
    registered (BrokerState.mk [("u", [])] false false) "u" = [] ∧
    runStep (BrokerState.mk [("u", [])] false false) (Request.pub (Message.mk "t" 7))
      = (BrokerState.mk [("u", [])] false false, []) ∧
    runStep (BrokerState.mk [("u", [])] false false) (Request.pub (Message.mk "u" 7))
      = (BrokerState.mk [("u", [])] false false, []) :=
  ⟨rfl, by decide, by decide,
   C5_publish_no_subscribers (BrokerState.mk [("u", [])] false false) "t" 7 rfl (by decide),
   C5_publish_no_subscribers (BrokerState.mk [("u", [])] false false) "u" 7 rfl (by decide)⟩

/-- Claim C6 (confirmed).  A delivery attempt races the channel send against
the fixed 1-second context deadline: it never waits beyond the deadline; if
the send can never complete it drops the message at the deadline; if the
send becomes possible at time `rt` it succeeds at `rt` when `rt` is within
the deadline and otherwise drops at the deadline — with no retry and no
further action in either outcome. -/
theorem C6_delivery_deadline (sendReady : Option Nat) :
    (deliverOne sendReady).2 ≤ deliveryTimeout ∧
    (sendReady = none → deliverOne sendReady = (DeliveryResult.dropped, deliveryTimeout)) ∧
    ∀ rt, sendReady = some rt →
      (rt ≤ deliveryTimeout → deliverOne sendReady = (DeliveryResult.sent, rt)) ∧
      (deliveryTimeout < rt → deliverOne sendReady = (DeliveryResult.dropped, deliveryTimeout)) := by
  refine ⟨?_, ?_, ?_⟩
  · cases sendReady with
    | none => simp [deliverOne]
    | some rt =>
        by_cases hrt : rt ≤ deliveryTimeout
        · simp [deliverOne, hrt]
        · simp [deliverOne, hrt]
  · rintro rfl
    rfl
  · rintro rt rfl
    constructor
    · intro hrt
      simp [deliverOne, hrt]
    · intro hrt
      have hn : ¬ rt ≤ deliveryTimeout := Nat.not_le.mpr hrt
      simp [deliverOne, hn]

theorem C6_delivery_deadline_witness :
    deliverOne (some 5) = (DeliveryResult.sent, 5) ∧
    deliverOne none = (DeliveryResult.dropped, deliveryTimeout) ∧
    (deliverOne (some 5)).2 ≤ deliveryTimeout :=
  ⟨((C6_delivery_deadline (some 5)).2.2 5 rfl).1 (by decide),
   (C6_delivery_deadline none).2.1 rfl,
   (C6_delivery_deadline (some 5)).1⟩

/-- Claim C7 (confirmed).  While the broker is running, `Subscribe(topic)`
always succeeds and returns the freshly allocated channel `s.nextHandle` —
distinct from every previously allocated handle — created with the fixed
buffer capacity 10, and once the coordinating routine accepts the request
the handle is registered under the topic. -/
theorem C7_subscribe_fresh (ops : List Op) (t : Topic)
    (hrun : (apiRun apiInit ops).broker.stopped = false) :
    (∀ c ∈ (apiRun apiInit ops).caps, c.1 ≠ (apiRun apiInit ops).nextHandle) ∧
    ((apiRun apiInit ops).nextHandle, subscriberCapacity)
      ∈ (apiStep (apiRun apiInit ops) (Op.subscribe t)).caps ∧
    subscriberCapacity = 10 ∧
    (apiRun apiInit ops).nextHandle
      ∈ registered (apiStep (apiRun apiInit ops) (Op.subscribe t)).broker t := by
  have inv := apiInv_apiRun apiInv_init ops
  refine ⟨?_, ?_, rfl, ?_⟩
  · intro c hc he
    have hb := inv.capsBound c hc
    rw [he] at hb
    exact lt_irrefl _ hb
  · rw [apiStep_subscribe_eq]
    exact List.mem_append_right _ (List.mem_singleton_self _)
  · rw [apiStep_subscribe_eq]
    show (apiRun apiInit ops).nextHandle ∈
      registered (runStep (apiRun apiInit ops).broker
        (Request.sub t (apiRun apiInit ops).nextHandle)).1 t
    rw [runStep_sub_eq hrun]
    show (apiRun apiInit ops).nextHandle ∈
      (lookupTopic (setTopic (apiRun apiInit ops).broker.subscriptions t
        (insertH (apiRun apiInit ops).nextHandle
          ((lookupTopic (apiRun apiInit ops).broker.subscriptions t).getD []))) t).getD []
    rw [lookupTopic_setTopic_self]
    simp only [Option.getD_some]
    exact self_mem_insertH _ _

theorem C7_subscribe_fresh_witness :
    (apiRun apiInit []).broker.stopped = false ∧
    ((apiRun apiInit []).nextHandle, subscriberCapacity)
      ∈ (apiStep (apiRun apiInit []) (Op.subscribe "t")).caps ∧
    (apiRun apiInit []).nextHandle
      ∈ registered (apiStep (apiRun apiInit []) (Op.subscribe "t")).broker "t" :=
  ⟨rfl, (C7_subscribe_fresh [] "t" rfl).2.1, (C7_subscribe_fresh [] "t" rfl).2.2.2⟩

/-- Claim C8, counterexample.  The delivery tasks for two consecutive
publishes to the same subscriber are spawned as independent goroutines with
no ordering between them, so an execution may run them in either order: with
one subscriber of topic "t" (queue far below its capacity of 10), publishing
payload 1 then payload 2 spawns the two tasks in that order, yet the
reversed execution order — a permutation of the pending tasks — enqueues
[2, 1] instead of the coordinator's processing order [1, 2].  The claim's
"all `N` subscribers receive that message before any receives a later one"
therefore fails on some schedules even with capacity available. -/
theorem C8_counterexample :
    List.Perm ((runReqs NewBroker [Request.sub "t" 0, Request.pub (Message.mk "t" 1),
        Request.pub (Message.mk "t" 2)]).2).reverse
      (runReqs NewBroker [Request.sub "t" 0, Request.pub (Message.mk "t" 1),
        Request.pub (Message.mk "t" 2)]).2 ∧
    (deliveredTo (runReqs NewBroker [Request.sub "t" 0, Request.pub (Message.mk "t" 1),
        Request.pub (Message.mk "t" 2)]).2 0).length ≤ subscriberCapacity ∧
    deliveredTo ((runReqs NewBroker [Request.sub "t" 0, Request.pub (Message.mk "t" 1),
        Request.pub (Message.mk "t" 2)]).2).reverse 0 = [2, 1] ∧
    deliveredTo (runReqs NewBroker [Request.sub "t" 0, Request.pub (Message.mk "t" 1),
        Request.pub (Message.mk "t" 2)]).2 0 = [1, 2] := by
  decide

/-- Claim C8, amended.  What the coordinator does guarantee: for every
request sequence on a fresh broker and every handle, the delivery tasks
spawned for that handle carry, in spawn order, exactly the payloads
published (in submission order) to topics under which the handle was
registered at processing time.  Per-subscriber receipt order therefore
matches the coordinator's publish processing order precisely when the
schedule executes each spawned send before the next publish is processed
(and capacity is available); the code does not enforce such a schedule. -/
theorem C8_spawn_order (rs : List Request) (h : Handle) :
    deliveredTo (runReqs NewBroker rs).2 h = specDeliveries (fun _ => []) h rs := by
  have hsim := runReqs_deliveredTo (s := NewBroker) rfl (by intro p hp; cases hp) h rs
  rw [hsim, regFun_NewBroker]

/-- Claim C9 (confirmed).  An unsubscribe request for (t, h) is frame-local:
every other topic's entry is untouched; a close event is emitted exactly
when h was registered under t itself, and no other handle's channel is
closed — so a handle registered only under a different topic stays
registered there with its channel open. -/
theorem C9_unsub_frame (s : BrokerState) (t : Topic) (h : Handle)
    (hrun : s.stopped = false) :
    (∀ t', t' ≠ t →
      lookupTopic (runStep s (Request.unsub t h)).1.subscriptions t'
        = lookupTopic s.subscriptions t') ∧
    (Ev.close h ∈ (runStep s (Request.unsub t h)).2 ↔ h ∈ registered s t) ∧
    (∀ h', h' ≠ h → Ev.close h' ∉ (runStep s (Request.unsub t h)).2) := by
  cases hl : lookupTopic s.subscriptions t with
  | some hs =>
      by_cases hm : h ∈ hs
      · rw [runStep_unsub_mem_eq hrun hl hm]
        refine ⟨?_, ?_, ?_⟩
        · intro t' ht'
          exact lookupTopic_setTopic_ne ht'
        · simp [registered, hl, hm]
        · intro h' hne hmem
          rw [List.mem_singleton] at hmem
          injection hmem with e
          exact hne e
      · rw [runStep_unsub_notmem_eq hrun hl hm]
        refine ⟨fun t' _ => rfl, ?_, ?_⟩
        · simp [registered, hl, hm]
        · intro h' _ hmem
          simp at hmem
  | none =>
      rw [runStep_unsub_none_eq hrun hl]
      refine ⟨fun t' _ => rfl, ?_, ?_⟩
      · simp [registered, hl]
      · intro h' _ hmem
        simp at hmem

theorem C9_unsub_frame_witness :
    lookupTopic (runStep (BrokerState.mk [("a", [5]), ("b", [5])] false false)
        (Request.unsub "a" 5)).1.subscriptions "b"
      = lookupTopic (BrokerState.mk [("a", [5]), ("b", [5])] false false).subscriptions "b" ∧
    (Ev.close 5 ∈ (runStep (BrokerState.mk [("a", [5]), ("b", [5])] false false)
        (Request.unsub "a" 5)).2 ↔
      5 ∈ registered (BrokerState.mk [("a", [5]), ("b", [5])] false false) "a") :=
  ⟨(C9_unsub_frame (BrokerState.mk [("a", [5]), ("b", [5])] false false) "a" 5 rfl).1
      "b" (by decide),
   (C9_unsub_frame (BrokerState.mk [("a", [5]), ("b", [5])] false false) "a" 5 rfl).2.1⟩

/-- Claim C10, counterexample.  The stated precondition `1 ≤ w ≤ len(data)`
does not make the concurrent sum well defined: with 7 elements and 5
workers the chunk size is `(7+5-1)/5 = 2`, worker 4's chunk starts at index
8 > 7, and `data[8:7]` panics in Go (modelled as `none`), so the function
does not return the sequential sum 7. -/
theorem C10_counterexample :
    1 ≤ 5 ∧ 5 ≤ (List.replicate 7 (1 : Int)).length ∧
    sumSquaresConcurrent (List.replicate 7 (1 : Int)) 5 = none ∧
    sumSquaresSequential (List.replicate 7 (1 : Int)) = 7 := by
  decide

/-- Claim C10, amended.  With `w ≥ 1` workers and every chunk's start index
in bounds — equivalently the last start `(w-1) * chunkSize` at most
`len(data)`, which is what the slice expressions require and what the
stated `w ≤ len(data)` fails to guarantee — the concurrent sum equals the
sequential sum of squares. -/
theorem C10_equivalence_amended (data : List Int) (w : Nat) (h1 : 1 ≤ w)
    (h2 : (w - 1) * chunkSizeOf data w ≤ data.length) :
    sumSquaresConcurrent data w = some (sumSquaresSequential data) := by
  have hw0 : w ≠ 0 := by omega
  unfold sumSquaresConcurrent
  rw [if_neg hw0]
  have hcov : data.length ≤ (0 + w) * chunkSizeOf data w := by
    rw [Nat.zero_add]
    unfold chunkSizeOf
    exact le_mul_ceilDiv data.length w h1
  have hbnd : ∀ j, j < w → (0 + j) * chunkSizeOf data w ≤ data.length := by
    intro j hj
    rw [Nat.zero_add]
    calc j * chunkSizeOf data w
        ≤ (w - 1) * chunkSizeOf data w := Nat.mul_le_mul (by omega) (Nat.le_refl _)
      _ ≤ data.length := h2
  rw [concLoop_some data (chunkSizeOf data w) w 0 hcov hbnd, Nat.zero_mul, List.drop_zero,
      sumSquaresSequential_eq_sqSum]

theorem C10_equivalence_amended_witness :
    1 ≤ 3 ∧ (3 - 1) * chunkSizeOf [1, 2, 3, 4, 5] 3 ≤ ([1, 2, 3, 4, 5] : List Int).length ∧
    sumSquaresConcurrent [1, 2, 3, 4, 5] 3 = some (sumSquaresSequential [1, 2, 3, 4, 5]) :=
  ⟨by decide, by decide,
   C10_equivalence_amended [1, 2, 3, 4, 5] 3 (by decide) (by decide)⟩
